import Mathlib

/-!
Verification development for the getters2 derive macro (src/src/lib.rs).
The derive macro consumes a darling description of a struct or enum and
emits getter methods. The embedding below translates the data model, the
per-field resolution logic, the name synthesis, and the shape of every
generated method body; theorems about the claims follow the definitions.
-/

namespace Getters2

/-- Kinds of accessor generated by the derive macro: immutable reference,
mutable reference, clone, and dereference getters. -/
inductive Kind where
  | kref
  | kmut
  | kclone
  | kderef
deriving DecidableEq

/-- Embedding of a syn Member: a field locator inside the generated body,
either a named field or a positional index. -/
inductive Member where
  | named (ident : String)
  | unnamed (index : Nat)
deriving DecidableEq

/-- Shape of a generated accessor body, translated from the two quote
templates in src/src/lib.rs: direct field access for struct getters, and
the variant-guarded if-let access returning Option for enum getters. -/
inductive GenBody where
  | directField (locator : Member)
  | guardedField (enumIdent : String) (variantIdent : String) (locator : Member)
deriving DecidableEq

/-- One generated accessor method: its name, kind, and body shape. -/
structure AccessorSpec where
  methodName : String
  kind : Kind
  body : GenBody
deriving DecidableEq

/-- Embedding of GettersField. Darling flags become Bool via is_present;
the unused vis and attrs plumbing is omitted; the field type is kept as an
opaque string. -/
structure GettersField where
  ident : Option String
  ty : String
  mutable : Bool
  deref : Bool
  clone : Bool
  skip : Bool
  skip_mutable : Bool
  skip_deref : Bool
  skip_clone : Bool
deriving DecidableEq

/-- Embedding of GettersVariant. The mutable, deref and clone flags exist
in the source struct (marked allow unused there); the discriminant is an
opaque expression modeled as a Nat. -/
structure GettersVariant where
  ident : String
  discriminant : Option Nat
  fields : List GettersField
  mutable : Bool
  deref : Bool
  clone : Bool
  skip : Bool
  skip_mutable : Bool
  skip_deref : Bool
  skip_clone : Bool
deriving DecidableEq

/-- Embedding of the darling Data payload of GettersInput: struct fields
or enum variants. -/
inductive GettersData where
  | isStruct (fields : List GettersField)
  | isEnum (variants : List GettersVariant)
deriving DecidableEq

/-- Embedding of GettersInput: the derive target with its type-level
flags. -/
structure GettersInput where
  ident : String
  data : GettersData
  mutable : Bool
  clone : Bool
  deref : Bool
deriving DecidableEq

/-- Embedding of the NUMERAL_TO_ORDINAL table, character for character
(index 7 is spelled eigth in the source). -/
def NUMERAL_TO_ORDINAL : List String :=
  ["first", "second", "third", "fourth", "fifth", "sixth", "seventh", "eigth",
   "ninth", "tenth", "eleventh", "twelfth", "thirteenth", "fourteenth",
   "fifteenth", "sixteenth", "seventeenth", "eighteenth", "nineteenth",
   "twentieth"]

/-- Embedding of the LAST constant. -/
def LAST : String := "last"

/-- Embedding of method_name. The Rust code indexes the ordinal table
without a bounds check, which panics out of bounds; the panic is modeled
as none. The function is only invoked with max at least 1. -/
def method_name (i max : Nat) : Option String :=
  if i = max - 1 ∧ max ≠ 1 then some LAST
  else NUMERAL_TO_ORDINAL[i]?

/-- Embedding of the TUPLE_ELEMENTS table of pattern binder names. -/
def TUPLE_ELEMENTS : List String :=
  ["a", "b", "c", "d", "e", "f", "g", "h", "i", "j", "k", "l", "m", "n", "o",
   "p", "q", "r", "s", "t"]

/-- Embedding of tuple_element_name; the unguarded index panics (none)
beyond the 20 entry table. -/
def tuple_element_name (index : Nat) : Option String := TUPLE_ELEMENTS[index]?

/-- Sequential option traversal, used to model iterator collects whose
element computations can panic. -/
def mapMo {α β : Type} (g : α → Option β) : List α → Option (List β)
  | [] => some []
  | x :: xs =>
    match g x with
    | none => none
    | some y =>
      match mapMo g xs with
      | none => none
      | some ys => some (y :: ys)

/-- Embedding of tuple_elements: the binder names for positions 0..max-1,
evaluated eagerly, panicking past the table bound. -/
def tuple_elements (max : Nat) : Option (List String) :=
  mapMo tuple_element_name (List.range max)

/-- Embedding of tuple_elements_mut; identical name sequence, the ref mut
keywords only affect the rendered pattern text. -/
def tuple_elements_mut (max : Nat) : Option (List String) :=
  mapMo tuple_element_name (List.range max)

/-- ASCII lowercase of one character, as in Rust to_ascii_lowercase. -/
def asciiLowerChar (c : Char) : Char :=
  if 65 ≤ c.toNat ∧ c.toNat ≤ 90 then Char.ofNat (c.toNat + 32) else c

/-- ASCII lowercase of a string, as in Rust str::to_ascii_lowercase. -/
def asciiLowercase (s : String) : String :=
  String.mk (s.data.map asciiLowerChar)

/-- Suffix appended to the method base name for each accessor kind. -/
def suffixFor : Kind → String
  | Kind.kref => "_ref"
  | Kind.kmut => "_mut"
  | Kind.kclone => "_clone"
  | Kind.kderef => "_deref"

/-- The quadruple (immutable, maybe_mutable, maybe_clone, maybe_deref) of
generated methods concatenated in source order; each component is present
exactly when its resolved boolean is true. Shared by the struct and enum
templates, which differ only in the base name and body passed in. -/
def specsFor (base : String) (body : GenBody)
    (immutable mutable clone deref : Bool) : List AccessorSpec :=
  (if immutable then [⟨base ++ "_ref", Kind.kref, body⟩] else []) ++
  (if mutable then [⟨base ++ "_mut", Kind.kmut, body⟩] else []) ++
  (if clone then [⟨base ++ "_clone", Kind.kclone, body⟩] else []) ++
  (if deref then [⟨base ++ "_deref", Kind.kderef, body⟩] else [])

/-- Embedding of GettersInput::method_field: resolution of the four
emission booleans followed by the named or positional direct template. -/
def method_field (self : GettersInput) (field : GettersField)
    (index max : Nat) : Option (List AccessorSpec) :=
  let immutable := !field.skip
  let mutable := (field.mutable || self.mutable) && !field.skip_mutable
  let clone := (field.clone || self.clone) && !field.skip_clone
  let deref := (field.deref || self.deref) && !field.skip_deref
  match field.ident with
  | some ident =>
    some (specsFor ident (GenBody.directField (Member.named ident))
      immutable mutable clone deref)
  | none =>
    match method_name index max with
    | none => none
    | some name =>
      some (specsFor name (GenBody.directField (Member.unnamed index))
        immutable mutable clone deref)

/-- Embedding of GettersInput::method_variant: resolution of the four
emission booleans (including the variant-level skip flags passed by the
caller) followed by the named or positional guarded template. The tuple
pattern helpers are evaluated in source order so their panics are kept. -/
def method_variant (self : GettersInput) (field : GettersField)
    (index max : Nat) (enum_ident variant_ident : String)
    (skip skip_mutable skip_clone skip_deref : Bool) :
    Option (List AccessorSpec) :=
  let immutable := !field.skip && !skip
  let mutable := (field.mutable || self.mutable) && !field.skip_mutable &&
    !skip_mutable
  let clone := (field.clone || self.clone) && !field.skip_clone && !skip_clone
  let deref := (field.deref || self.deref) && !field.skip_deref && !skip_deref
  let vpfx := asciiLowercase variant_ident
  match field.ident with
  | some ident =>
    some (specsFor (vpfx ++ "_" ++ ident)
      (GenBody.guardedField enum_ident variant_ident (Member.named ident))
      immutable mutable clone deref)
  | none =>
    match method_name index max with
    | none => none
    | some name =>
      match tuple_elements max with
      | none => none
      | some _ =>
        match tuple_elements_mut max with
        | none => none
        | some _ =>
          match tuple_element_name index with
          | none => none
          | some _ =>
            some (specsFor (vpfx ++ "_" ++ name)
              (GenBody.guardedField enum_ident variant_ident
                (Member.unnamed index))
              immutable mutable clone deref)

/-- Enumerated sequential traversal concatenating per-element outputs,
mirroring iter().enumerate().map(g).collect() on token streams whose
element computations can panic. -/
def collectFrom {α : Type} (g : Nat → α → Option (List AccessorSpec)) :
    Nat → List α → Option (List AccessorSpec)
  | _, [] => some []
  | i, x :: xs =>
    match g i x with
    | none => none
    | some l =>
      match collectFrom g (i + 1) xs with
      | none => none
      | some rest => some (l ++ rest)

/-- Embedding of GettersInput::methods_struct. -/
def methods_struct (self : GettersInput) (fields : List GettersField) :
    Option (List AccessorSpec) :=
  collectFrom (fun i f => method_field self f i fields.length) 0 fields

/-- A failure of the generator: the abort on an explicit discriminant, or
an index panic in the ordinal or tuple element tables. The discriminant
abort carries the offending discriminant, matching the abort call that
reports at the discriminant location. -/
inductive GenError where
  | unsupportedDiscriminant (discriminant : Nat)
  | panicIndexOutOfBounds
deriving DecidableEq

/-- Embedding of GettersInput::methods_enum: per variant, abort when the
variant carries a discriminant, then generate the guarded methods for its
fields in order. -/
def methods_enum (self : GettersInput) :
    List GettersVariant → Except GenError (List AccessorSpec)
  | [] => Except.ok []
  | v :: vs =>
    match v.discriminant with
    | some d => Except.error (GenError.unsupportedDiscriminant d)
    | none =>
      match collectFrom
          (fun i f => method_variant self f i v.fields.length self.ident
            v.ident v.skip v.skip_mutable v.skip_clone v.skip_deref)
          0 v.fields with
      | none => Except.error GenError.panicIndexOutOfBounds
      | some l =>
        match methods_enum self vs with
        | Except.error e => Except.error e
        | Except.ok rest => Except.ok (l ++ rest)

/-- Embedding of the ToTokens dispatch: struct data goes through
methods_struct, enum data through methods_enum. -/
def getters_methods (self : GettersInput) :
    Except GenError (List AccessorSpec) :=
  match self.data with
  | GettersData.isStruct fields =>
    match methods_struct self fields with
    | none => Except.error GenError.panicIndexOutOfBounds
    | some l => Except.ok l
  | GettersData.isEnum variants => methods_enum self variants

/-- A runtime value of the derived type: the name of the variant it was
constructed as (irrelevant for structs, which have a single shape), and
its field contents by name and by position. Field contents are modeled as
Nat, since clone and copy return the same value in a pure model. -/
structure Value where
  activeVariant : String
  namedVals : String → Nat
  positionalVals : List Nat

/-- Field content selected by a locator. -/
def lookupMember (locator : Member) (v : Value) : Nat :=
  match locator with
  | Member.named n => v.namedVals n
  | Member.unnamed i => v.positionalVals.getD i 0

/-- Result of invoking a generated accessor: a bare value for the direct
struct template, a presence-wrapped value for the guarded enum
template. -/
inductive RetVal where
  | direct (val : Nat)
  | wrapped (val : Option Nat)
deriving DecidableEq

/-- Evaluation of a generated body against a runtime value, translated
from the rendered Rust: direct access returns the field; the guarded
if-let returns some field when the active variant matches the pattern and
none otherwise. -/
def evalBody (body : GenBody) (v : Value) : RetVal :=
  match body with
  | GenBody.directField loc => RetVal.direct (lookupMember loc v)
  | GenBody.guardedField _ vi loc =>
    RetVal.wrapped
      (if v.activeVariant = vi then some (lookupMember loc v) else none)

/-- Modelled from the spec: the full list of all four accessor kinds for
one field, in the fixed per-field kind order Ref, Mut, Clone, Deref
required by the ordering contract of the accessor planner. -/
def allKindsFor (base : String) (body : GenBody) : List AccessorSpec :=
  [⟨base ++ "_ref", Kind.kref, body⟩] ++
  [⟨base ++ "_mut", Kind.kmut, body⟩] ++
  [⟨base ++ "_clone", Kind.kclone, body⟩] ++
  [⟨base ++ "_deref", Kind.kderef, body⟩]

/-- Modelled from the spec: the fully-enabled plan entries of one struct
field. -/
def fullFieldStruct (f : GettersField) (i max : Nat) :
    Option (List AccessorSpec) :=
  match f.ident with
  | some nm => some (allKindsFor nm (GenBody.directField (Member.named nm)))
  | none =>
    (method_name i max).map
      (fun nm => allKindsFor nm (GenBody.directField (Member.unnamed i)))

/-- Modelled from the spec: the canonical fully-enabled ordered plan of a
struct declaration, fields enumerated in position order, each contributing
its four kinds in the fixed order. -/
def fullPlanStruct (fields : List GettersField) :
    Option (List AccessorSpec) :=
  collectFrom (fun i f => fullFieldStruct f i fields.length) 0 fields

/-- Modelled from the spec: the fully-enabled plan entries of one enum
variant field. -/
def fullFieldEnum (enum_ident variant_ident : String) (f : GettersField)
    (i max : Nat) : Option (List AccessorSpec) :=
  match f.ident with
  | some nm =>
    some (allKindsFor (asciiLowercase variant_ident ++ "_" ++ nm)
      (GenBody.guardedField enum_ident variant_ident (Member.named nm)))
  | none =>
    (method_name i max).map
      (fun nm => allKindsFor (asciiLowercase variant_ident ++ "_" ++ nm)
        (GenBody.guardedField enum_ident variant_ident (Member.unnamed i)))

/-- Modelled from the spec: the fully-enabled plan entries of one enum
variant, fields in position order, kinds in the fixed order. -/
def fullVariantEnum (enum_ident : String) (v : GettersVariant) :
    Option (List AccessorSpec) :=
  collectFrom (fun i f => fullFieldEnum enum_ident v.ident f i v.fields.length)
    0 v.fields

/-- Modelled from the spec: the canonical fully-enabled ordered plan of an
enum declaration, variants in declaration order. -/
def fullPlanEnum (enum_ident : String) (variants : List GettersVariant) :
    Option (List AccessorSpec) :=
  collectFrom (fun _ v => fullVariantEnum enum_ident v) 0 variants

end Getters2

deriving instance DecidableEq for Except

namespace Getters2

/-! Helper lemmas shared by the claim theorems. -/

theorem ifsingle_sublist {b : Bool} {x : AccessorSpec} :
    List.Sublist (if b then [x] else []) [x] := by
  cases b
  · exact List.nil_sublist _
  · exact List.Sublist.refl _

theorem specsFor_sublist {base : String} {body : GenBody}
    {b1 b2 b3 b4 : Bool} :
    List.Sublist (specsFor base body b1 b2 b3 b4) (allKindsFor base body) := by
  unfold specsFor allKindsFor
  exact List.Sublist.append
    (List.Sublist.append
      (List.Sublist.append ifsingle_sublist ifsingle_sublist)
      ifsingle_sublist)
    ifsingle_sublist

theorem mem_specsFor {s : AccessorSpec} {base : String} {body : GenBody}
    {b1 b2 b3 b4 : Bool} :
    s ∈ specsFor base body b1 b2 b3 b4 ↔
      (b1 = true ∧ s = ⟨base ++ "_ref", Kind.kref, body⟩) ∨
      (b2 = true ∧ s = ⟨base ++ "_mut", Kind.kmut, body⟩) ∨
      (b3 = true ∧ s = ⟨base ++ "_clone", Kind.kclone, body⟩) ∨
      (b4 = true ∧ s = ⟨base ++ "_deref", Kind.kderef, body⟩) := by
  cases b1 <;> cases b2 <;> cases b3 <;> cases b4 <;>
    simp [specsFor, or_assoc]

theorem exists_kind_specsFor (base : String) (body : GenBody)
    (b1 b2 b3 b4 : Bool) :
    ((∃ s ∈ specsFor base body b1 b2 b3 b4, s.kind = Kind.kref) ↔ b1 = true) ∧
    ((∃ s ∈ specsFor base body b1 b2 b3 b4, s.kind = Kind.kmut) ↔ b2 = true) ∧
    ((∃ s ∈ specsFor base body b1 b2 b3 b4, s.kind = Kind.kclone) ↔
      b3 = true) ∧
    ((∃ s ∈ specsFor base body b1 b2 b3 b4, s.kind = Kind.kderef) ↔
      b4 = true) := by
  cases b1 <;> cases b2 <;> cases b3 <;> cases b4 <;>
    simp [specsFor]

theorem mem_collectFrom {α : Type} {g : Nat → α → Option (List AccessorSpec)} :
    ∀ {i : Nat} {xs : List α} {l : List AccessorSpec},
      collectFrom g i xs = some l → ∀ {s : AccessorSpec}, s ∈ l →
      ∃ j x, xs[j]? = some x ∧ ∃ lx, g (i + j) x = some lx ∧ s ∈ lx := by
  intro i xs
  induction xs generalizing i with
  | nil =>
    intro l h s hs
    simp only [collectFrom] at h
    cases h
    simp at hs
  | cons x xs ih =>
    intro l h s hs
    simp only [collectFrom] at h
    cases hx : g i x with
    | none => rw [hx] at h; exact absurd h (by simp)
    | some lx =>
      rw [hx] at h
      cases hr : collectFrom g (i + 1) xs with
      | none => rw [hr] at h; exact absurd h (by simp)
      | some rest =>
        rw [hr] at h
        have hl : lx ++ rest = l := by simpa using h
        subst hl
        rcases List.mem_append.mp hs with h1 | h2
        · exact ⟨0, x, by simp, lx, by simpa using hx, h1⟩
        · obtain ⟨j, x2, hj, lx2, hg, hmem⟩ := ih hr h2
          refine ⟨j + 1, x2, by simpa using hj, lx2, ?_, hmem⟩
          have e : i + (j + 1) = (i + 1) + j := by omega
          rw [e]; exact hg

theorem collectFrom_sublist {α : Type}
    {g g2 : Nat → α → Option (List AccessorSpec)}
    (hpt : ∀ i x lx, g i x = some lx →
      ∃ l2, g2 i x = some l2 ∧ List.Sublist lx l2) :
    ∀ {i : Nat} {xs : List α} {l : List AccessorSpec},
      collectFrom g i xs = some l →
      ∃ l2, collectFrom g2 i xs = some l2 ∧ List.Sublist l l2 := by
  intro i xs
  induction xs generalizing i with
  | nil =>
    intro l h
    simp only [collectFrom] at h
    cases h
    exact ⟨[], rfl, List.Sublist.refl _⟩
  | cons x xs ih =>
    intro l h
    simp only [collectFrom] at h
    cases hx : g i x with
    | none => rw [hx] at h; exact absurd h (by simp)
    | some lx =>
      rw [hx] at h
      cases hr : collectFrom g (i + 1) xs with
      | none => rw [hr] at h; exact absurd h (by simp)
      | some rest =>
        rw [hr] at h
        have hl : lx ++ rest = l := by simpa using h
        obtain ⟨l2, hg2, hsub⟩ := hpt i x lx hx
        obtain ⟨r2, hr2, hsubr⟩ := ih hr
        refine ⟨l2 ++ r2, ?_, hl ▸ List.Sublist.append hsub hsubr⟩
        simp only [collectFrom]
        rw [hg2, hr2]

theorem collectFrom_total {α : Type}
    {g : Nat → α → Option (List AccessorSpec)} :
    ∀ {i : Nat} {xs : List α},
      (∀ j x, xs[j]? = some x → ∃ lx, g (i + j) x = some lx) →
      ∃ l, collectFrom g i xs = some l := by
  intro i xs
  induction xs generalizing i with
  | nil => intro _; exact ⟨[], rfl⟩
  | cons x xs ih =>
    intro h
    obtain ⟨lx, hx⟩ := h 0 x (by simp)
    obtain ⟨rest, hr⟩ := ih (fun j y hy => by
      have hh := h (j + 1) y (by simpa using hy)
      have e : i + (j + 1) = (i + 1) + j := by omega
      rw [e] at hh
      exact hh)
    refine ⟨lx ++ rest, ?_⟩
    simp only [collectFrom]
    rw [show g i x = some lx from by simpa using hx, hr]

theorem method_field_eq_specsFor {self : GettersInput} {f : GettersField}
    {i max : Nat} {l : List AccessorSpec}
    (h : method_field self f i max = some l) :
    ∃ base body, l = specsFor base body
      (!f.skip)
      ((f.mutable || self.mutable) && !f.skip_mutable)
      ((f.clone || self.clone) && !f.skip_clone)
      ((f.deref || self.deref) && !f.skip_deref) := by
  simp only [method_field] at h
  cases hid : f.ident with
  | some nm =>
    rw [hid] at h
    exact ⟨nm, _, (Option.some.inj h).symm⟩
  | none =>
    rw [hid] at h
    cases hmn : method_name i max with
    | none => rw [hmn] at h; exact absurd h (by simp)
    | some nm =>
      rw [hmn] at h
      exact ⟨nm, _, (Option.some.inj h).symm⟩

theorem method_variant_eq_specsFor {self : GettersInput} {f : GettersField}
    {i max : Nat} {eI vI : String} {sk skm skc skd : Bool}
    {l : List AccessorSpec}
    (h : method_variant self f i max eI vI sk skm skc skd = some l) :
    ∃ base body, l = specsFor base body
      (!f.skip && !sk)
      ((f.mutable || self.mutable) && !f.skip_mutable && !skm)
      ((f.clone || self.clone) && !f.skip_clone && !skc)
      ((f.deref || self.deref) && !f.skip_deref && !skd) := by
  simp only [method_variant] at h
  cases hid : f.ident with
  | some nm =>
    rw [hid] at h
    exact ⟨_, _, (Option.some.inj h).symm⟩
  | none =>
    rw [hid] at h
    cases hmn : method_name i max with
    | none => rw [hmn] at h; exact absurd h (by simp)
    | some nm =>
      rw [hmn] at h
      cases hte : tuple_elements max with
      | none => rw [hte] at h; exact absurd h (by simp)
      | some e1 =>
        rw [hte] at h
        cases htm : tuple_elements_mut max with
        | none => rw [htm] at h; exact absurd h (by simp)
        | some e2 =>
          rw [htm] at h
          cases hten : tuple_element_name i with
          | none => rw [hten] at h; exact absurd h (by simp)
          | some e3 =>
            rw [hten] at h
            exact ⟨_, _, (Option.some.inj h).symm⟩

theorem mem_specsFor_shape {s : AccessorSpec} {base : String}
    {body : GenBody} {b1 b2 b3 b4 : Bool}
    (hs : s ∈ specsFor base body b1 b2 b3 b4) :
    s.methodName = base ++ suffixFor s.kind ∧ s.body = body := by
  rcases mem_specsFor.mp hs with ⟨_, h⟩ | ⟨_, h⟩ | ⟨_, h⟩ | ⟨_, h⟩ <;>
    subst h <;> exact ⟨rfl, rfl⟩

theorem method_field_mem_shape {self : GettersInput} {f : GettersField}
    {i max : Nat} {l : List AccessorSpec} {s : AccessorSpec}
    (h : method_field self f i max = some l) (hs : s ∈ l) :
    ∃ base,
      s.methodName = base ++ suffixFor s.kind ∧
      ((f.ident = some base ∧
        s.body = GenBody.directField (Member.named base)) ∨
       (f.ident = none ∧ method_name i max = some base ∧
        s.body = GenBody.directField (Member.unnamed i))) := by
  simp only [method_field] at h
  cases hid : f.ident with
  | some nm =>
    rw [hid] at h
    rw [← Option.some.inj h] at hs
    obtain ⟨hname, hbody⟩ := mem_specsFor_shape hs
    exact ⟨nm, hname, Or.inl ⟨rfl, hbody⟩⟩
  | none =>
    rw [hid] at h
    cases hmn : method_name i max with
    | none => rw [hmn] at h; exact absurd h (by simp)
    | some nm =>
      rw [hmn] at h
      rw [← Option.some.inj h] at hs
      obtain ⟨hname, hbody⟩ := mem_specsFor_shape hs
      exact ⟨nm, hname, Or.inr ⟨rfl, rfl, hbody⟩⟩

theorem method_variant_mem_shape {self : GettersInput} {f : GettersField}
    {i max : Nat} {eI vI : String} {sk skm skc skd : Bool}
    {l : List AccessorSpec} {s : AccessorSpec}
    (h : method_variant self f i max eI vI sk skm skc skd = some l)
    (hs : s ∈ l) :
    ∃ base,
      s.methodName = asciiLowercase vI ++ "_" ++ base ++ suffixFor s.kind ∧
      ((f.ident = some base ∧
        s.body = GenBody.guardedField eI vI (Member.named base)) ∨
       (f.ident = none ∧ method_name i max = some base ∧
        s.body = GenBody.guardedField eI vI (Member.unnamed i))) := by
  simp only [method_variant] at h
  cases hid : f.ident with
  | some nm =>
    rw [hid] at h
    rw [← Option.some.inj h] at hs
    obtain ⟨hname, hbody⟩ := mem_specsFor_shape hs
    exact ⟨nm, hname, Or.inl ⟨rfl, hbody⟩⟩
  | none =>
    rw [hid] at h
    cases hmn : method_name i max with
    | none => rw [hmn] at h; exact absurd h (by simp)
    | some nm =>
      rw [hmn] at h
      cases hte : tuple_elements max with
      | none => rw [hte] at h; exact absurd h (by simp)
      | some e1 =>
        rw [hte] at h
        cases htm : tuple_elements_mut max with
        | none => rw [htm] at h; exact absurd h (by simp)
        | some e2 =>
          rw [htm] at h
          cases hten : tuple_element_name i with
          | none => rw [hten] at h; exact absurd h (by simp)
          | some e3 =>
            rw [hten] at h
            rw [← Option.some.inj h] at hs
            obtain ⟨hname, hbody⟩ := mem_specsFor_shape hs
            exact ⟨nm, hname, Or.inr ⟨rfl, rfl, hbody⟩⟩

theorem mem_methods_enum {self : GettersInput} :
    ∀ {vs : List GettersVariant} {l : List AccessorSpec},
      methods_enum self vs = Except.ok l → ∀ {s : AccessorSpec}, s ∈ l →
      ∃ v, v ∈ vs ∧ ∃ lv,
        collectFrom (fun i f => method_variant self f i v.fields.length
          self.ident v.ident v.skip v.skip_mutable v.skip_clone
          v.skip_deref) 0 v.fields = some lv ∧ s ∈ lv := by
  intro vs
  induction vs with
  | nil =>
    intro l h s hs
    cases h
    simp at hs
  | cons v vs ih =>
    intro l h s hs
    simp only [methods_enum] at h
    cases hd : v.discriminant with
    | some d => rw [hd] at h; exact absurd h (by simp)
    | none =>
      rw [hd] at h
      cases hc : collectFrom (fun i f => method_variant self f i
          v.fields.length self.ident v.ident v.skip v.skip_mutable
          v.skip_clone v.skip_deref) 0 v.fields with
      | none => rw [hc] at h; exact absurd h (by simp)
      | some lv =>
        rw [hc] at h
        cases hrec : methods_enum self vs with
        | error e => rw [hrec] at h; exact absurd h (by simp)
        | ok rest =>
          rw [hrec] at h
          have hl : lv ++ rest = l := by simpa using h
          subst hl
          rcases List.mem_append.mp hs with h1 | h2
          · exact ⟨v, List.mem_cons_self v vs, lv, hc, h1⟩
          · obtain ⟨v2, hv2, lv2, hc2, hm⟩ := ih hrec h2
            exact ⟨v2, List.mem_cons_of_mem v hv2, lv2, hc2, hm⟩

theorem NUMERAL_TO_ORDINAL_length : NUMERAL_TO_ORDINAL.length = 20 := rfl

theorem TUPLE_ELEMENTS_length : TUPLE_ELEMENTS.length = 20 := rfl

theorem method_name_total {i max : Nat} (h1 : i < max) (h2 : max ≤ 20) :
    ∃ s, method_name i max = some s := by
  unfold method_name
  by_cases hc : i = max - 1 ∧ max ≠ 1
  · rw [if_pos hc]
    exact ⟨_, rfl⟩
  · rw [if_neg hc]
    have hlt : i < NUMERAL_TO_ORDINAL.length := by
      rw [NUMERAL_TO_ORDINAL_length]; omega
    rw [List.getElem?_eq_getElem hlt]
    exact ⟨_, rfl⟩

theorem tuple_element_name_total {i : Nat} (h : i < 20) :
    ∃ s, tuple_element_name i = some s := by
  unfold tuple_element_name
  have hlt : i < TUPLE_ELEMENTS.length := by rw [TUPLE_ELEMENTS_length]; omega
  rw [List.getElem?_eq_getElem hlt]
  exact ⟨_, rfl⟩

theorem mapMo_total {α β : Type} {g : α → Option β} :
    ∀ {xs : List α}, (∀ x ∈ xs, ∃ y, g x = some y) →
      ∃ ys, mapMo g xs = some ys := by
  intro xs
  induction xs with
  | nil => intro _; exact ⟨[], rfl⟩
  | cons x xs ih =>
    intro h
    obtain ⟨y, hy⟩ := h x (List.mem_cons_self x xs)
    obtain ⟨ys, hys⟩ := ih (fun z hz => h z (List.mem_cons_of_mem x hz))
    refine ⟨y :: ys, ?_⟩
    simp only [mapMo]
    rw [hy, hys]

theorem tuple_elements_total {max : Nat} (h : max ≤ 20) :
    ∃ l, tuple_elements max = some l := by
  apply mapMo_total
  intro x hx
  exact tuple_element_name_total (by have := List.mem_range.mp hx; omega)

theorem method_variant_total {self : GettersInput} {f : GettersField}
    {i max : Nat} {eI vI : String} {sk skm skc skd : Bool}
    (h1 : i < max) (h2 : max ≤ 20) :
    ∃ l, method_variant self f i max eI vI sk skm skc skd = some l := by
  simp only [method_variant]
  cases hid : f.ident with
  | some nm => exact ⟨_, rfl⟩
  | none =>
    obtain ⟨nm, hnm⟩ := method_name_total h1 h2
    rw [hnm]
    obtain ⟨e1, he1⟩ := tuple_elements_total h2
    rw [he1]
    rw [show tuple_elements_mut max = some e1 from he1]
    obtain ⟨e3, he3⟩ := tuple_element_name_total (by omega : i < 20)
    rw [he3]
    exact ⟨_, rfl⟩

theorem collectFrom_const_index {α : Type}
    {g0 : α → Option (List AccessorSpec)} :
    ∀ (xs : List α) (i j : Nat),
      collectFrom (fun _ x => g0 x) i xs =
        collectFrom (fun _ x => g0 x) j xs := by
  intro xs
  induction xs with
  | nil => intro i j; rfl
  | cons x xs ih =>
    intro i j
    simp only [collectFrom]
    rw [ih (i + 1) (j + 1)]

theorem method_field_sublist_full {self : GettersInput} {f : GettersField}
    {i max : Nat} {lx : List AccessorSpec}
    (h : method_field self f i max = some lx) :
    ∃ l2, fullFieldStruct f i max = some l2 ∧ List.Sublist lx l2 := by
  simp only [method_field] at h
  simp only [fullFieldStruct]
  cases hid : f.ident with
  | some nm =>
    rw [hid] at h
    rw [← Option.some.inj h]
    exact ⟨_, rfl, specsFor_sublist⟩
  | none =>
    rw [hid] at h
    cases hmn : method_name i max with
    | none => rw [hmn] at h; exact absurd h (by simp)
    | some nm =>
      rw [hmn] at h
      rw [← Option.some.inj h]
      exact ⟨_, rfl, specsFor_sublist⟩

theorem method_variant_sublist_full {self : GettersInput}
    {f : GettersField} {i max : Nat} {eI vI : String}
    {sk skm skc skd : Bool} {lx : List AccessorSpec}
    (h : method_variant self f i max eI vI sk skm skc skd = some lx) :
    ∃ l2, fullFieldEnum eI vI f i max = some l2 ∧ List.Sublist lx l2 := by
  simp only [method_variant] at h
  simp only [fullFieldEnum]
  cases hid : f.ident with
  | some nm =>
    rw [hid] at h
    rw [← Option.some.inj h]
    exact ⟨_, rfl, specsFor_sublist⟩
  | none =>
    rw [hid] at h
    cases hmn : method_name i max with
    | none => rw [hmn] at h; exact absurd h (by simp)
    | some nm =>
      rw [hmn] at h
      cases hte : tuple_elements max with
      | none => rw [hte] at h; exact absurd h (by simp)
      | some e1 =>
        rw [hte] at h
        cases htm : tuple_elements_mut max with
        | none => rw [htm] at h; exact absurd h (by simp)
        | some e2 =>
          rw [htm] at h
          cases hten : tuple_element_name i with
          | none => rw [hten] at h; exact absurd h (by simp)
          | some e3 =>
            rw [hten] at h
            rw [← Option.some.inj h]
            exact ⟨_, rfl, specsFor_sublist⟩

theorem methods_enum_sublist_full {self : GettersInput} :
    ∀ {vs : List GettersVariant} {l : List AccessorSpec},
      methods_enum self vs = Except.ok l →
      ∃ full, fullPlanEnum self.ident vs = some full ∧
        List.Sublist l full := by
  intro vs
  induction vs with
  | nil =>
    intro l h
    cases h
    exact ⟨[], rfl, List.Sublist.refl _⟩
  | cons v vs ih =>
    intro l h
    simp only [methods_enum] at h
    cases hd : v.discriminant with
    | some d => rw [hd] at h; exact absurd h (by simp)
    | none =>
      rw [hd] at h
      cases hc : collectFrom (fun i f => method_variant self f i
          v.fields.length self.ident v.ident v.skip v.skip_mutable
          v.skip_clone v.skip_deref) 0 v.fields with
      | none => rw [hc] at h; exact absurd h (by simp)
      | some lv =>
        rw [hc] at h
        cases hrec : methods_enum self vs with
        | error e => rw [hrec] at h; exact absurd h (by simp)
        | ok rest =>
          rw [hrec] at h
          have hl : lv ++ rest = l := by simpa using h
          have hsubv : ∃ lv2, fullVariantEnum self.ident v = some lv2 ∧
              List.Sublist lv lv2 :=
            collectFrom_sublist
              (fun i x lx hx => method_variant_sublist_full hx) hc
          obtain ⟨lv2, hlv2, hsv⟩ := hsubv
          obtain ⟨full2, hfull2, hsr⟩ := ih hrec
          refine ⟨lv2 ++ full2, ?_, hl ▸ List.Sublist.append hsv hsr⟩
          show collectFrom (fun _ u => fullVariantEnum self.ident u) 0
            (v :: vs) = some (lv2 ++ full2)
          simp only [collectFrom]
          rw [hlv2]
          rw [show collectFrom (fun _ u => fullVariantEnum self.ident u)
            1 vs = some full2 from
            (collectFrom_const_index vs 1 0).trans hfull2]

/-! Claim theorems. -/

/-- Claim C1: for every field of every enum variant, and for every struct
field (whose variant-level skips are vacuously absent), each capability in
mut, clone, deref is emitted iff its field-level enable flag or type-level
default is present and neither the field-level nor the variant-level skip
flag for it is present; the immutable reference accessor is emitted iff
the field-level and variant-level skip flags are absent. -/
theorem claim_c1 :
    (∀ (self : GettersInput) (field : GettersField) (index max : Nat)
       (enum_ident variant_ident : String)
       (vskip vskip_mutable vskip_clone vskip_deref : Bool)
       (l : List AccessorSpec),
       method_variant self field index max enum_ident variant_ident
         vskip vskip_mutable vskip_clone vskip_deref = some l →
       (((∃ s ∈ l, s.kind = Kind.kref) ↔
           (field.skip = false ∧ vskip = false)) ∧
        ((∃ s ∈ l, s.kind = Kind.kmut) ↔
           ((field.mutable = true ∨ self.mutable = true) ∧
            field.skip_mutable = false ∧ vskip_mutable = false)) ∧
        ((∃ s ∈ l, s.kind = Kind.kclone) ↔
           ((field.clone = true ∨ self.clone = true) ∧
            field.skip_clone = false ∧ vskip_clone = false)) ∧
        ((∃ s ∈ l, s.kind = Kind.kderef) ↔
           ((field.deref = true ∨ self.deref = true) ∧
            field.skip_deref = false ∧ vskip_deref = false)))) ∧
    (∀ (self : GettersInput) (field : GettersField) (index max : Nat)
       (l : List AccessorSpec),
       method_field self field index max = some l →
       (((∃ s ∈ l, s.kind = Kind.kref) ↔ field.skip = false) ∧
        ((∃ s ∈ l, s.kind = Kind.kmut) ↔
           ((field.mutable = true ∨ self.mutable = true) ∧
            field.skip_mutable = false)) ∧
        ((∃ s ∈ l, s.kind = Kind.kclone) ↔
           ((field.clone = true ∨ self.clone = true) ∧
            field.skip_clone = false)) ∧
        ((∃ s ∈ l, s.kind = Kind.kderef) ↔
           ((field.deref = true ∨ self.deref = true) ∧
            field.skip_deref = false)))) := by
  constructor
  · intro self field index max eI vI vskip vskm vskc vskd l h
    obtain ⟨base, body, hl⟩ := method_variant_eq_specsFor h
    subst hl
    have hk := exists_kind_specsFor base body
      (!field.skip && !vskip)
      ((field.mutable || self.mutable) && !field.skip_mutable && !vskm)
      ((field.clone || self.clone) && !field.skip_clone && !vskc)
      ((field.deref || self.deref) && !field.skip_deref && !vskd)
    refine ⟨?_, ?_, ?_, ?_⟩
    · rw [hk.1]
      cases field.skip <;> cases vskip <;> simp
    · rw [hk.2.1]
      cases field.mutable <;> cases self.mutable <;>
        cases field.skip_mutable <;> cases vskm <;> simp
    · rw [hk.2.2.1]
      cases field.clone <;> cases self.clone <;>
        cases field.skip_clone <;> cases vskc <;> simp
    · rw [hk.2.2.2]
      cases field.deref <;> cases self.deref <;>
        cases field.skip_deref <;> cases vskd <;> simp
  · intro self field index max l h
    obtain ⟨base, body, hl⟩ := method_field_eq_specsFor h
    subst hl
    have hk := exists_kind_specsFor base body
      (!field.skip)
      ((field.mutable || self.mutable) && !field.skip_mutable)
      ((field.clone || self.clone) && !field.skip_clone)
      ((field.deref || self.deref) && !field.skip_deref)
    refine ⟨?_, ?_, ?_, ?_⟩
    · rw [hk.1]
      cases field.skip <;> simp
    · rw [hk.2.1]
      cases field.mutable <;> cases self.mutable <;>
        cases field.skip_mutable <;> simp
    · rw [hk.2.2.1]
      cases field.clone <;> cases self.clone <;>
        cases field.skip_clone <;> simp
    · rw [hk.2.2.2]
      cases field.deref <;> cases self.deref <;>
        cases field.skip_deref <;> simp

/-- Witness for claim C1: a named enum field with type-level mutable on
and a field-level skip_clone, under a variant-level skip_deref. -/
theorem claim_c1_witness :
    ((∃ s ∈ specsFor "v_x"
        (GenBody.guardedField "E" "V" (Member.named "x"))
        true true false false, s.kind = Kind.kref) ↔
      (false = false ∧ false = false)) ∧
    ((∃ s ∈ specsFor "v_x"
        (GenBody.guardedField "E" "V" (Member.named "x"))
        true true false false, s.kind = Kind.kmut) ↔
      ((false = true ∨ true = true) ∧ false = false ∧ false = false)) ∧
    ((∃ s ∈ specsFor "v_x"
        (GenBody.guardedField "E" "V" (Member.named "x"))
        true true false false, s.kind = Kind.kclone) ↔
      ((false = true ∨ true = true) ∧ true = false ∧ false = false)) ∧
    ((∃ s ∈ specsFor "v_x"
        (GenBody.guardedField "E" "V" (Member.named "x"))
        true true false false, s.kind = Kind.kderef) ↔
      ((false = true ∨ true = true) ∧ false = false ∧ true = false)) :=
  claim_c1.1
    ⟨"E", GettersData.isEnum [], true, true, true⟩
    ⟨some "x", "T", false, false, false, false, false, false, true⟩
    0 1 "E" "V" false false false true
    (specsFor "v_x" (GenBody.guardedField "E" "V" (Member.named "x"))
      true true false false)
    (by decide)

/-- Claim C2: every accessor generated for an enum declaration has the
guarded Option-returning body: evaluated on a receiver whose active
variant is the owning variant it returns some of the located field
content, and on a receiver constructed as any other variant it returns
none; every accessor generated for a struct declaration accesses the
field directly and returns it bare, never wrapped. -/
theorem claim_c2 :
    (∀ (self : GettersInput) (variants : List GettersVariant)
       (specs : List AccessorSpec),
       self.data = GettersData.isEnum variants →
       getters_methods self = Except.ok specs →
       ∀ s ∈ specs, ∃ v ∈ variants, ∃ loc,
         s.body = GenBody.guardedField self.ident v.ident loc ∧
         ∀ value : Value,
           evalBody s.body value = RetVal.wrapped
             (if value.activeVariant = v.ident
              then some (lookupMember loc value) else none)) ∧
    (∀ (self : GettersInput) (fields : List GettersField)
       (specs : List AccessorSpec),
       self.data = GettersData.isStruct fields →
       getters_methods self = Except.ok specs →
       ∀ s ∈ specs, ∃ loc,
         s.body = GenBody.directField loc ∧
         ∀ value : Value,
           evalBody s.body value =
             RetVal.direct (lookupMember loc value)) := by
  constructor
  · intro self variants specs hdata h s hs
    have hme : methods_enum self variants = Except.ok specs := by
      simpa [getters_methods, hdata] using h
    obtain ⟨v, hv, lv, hc, hmemv⟩ := mem_methods_enum hme hs
    obtain ⟨j, f, hj, lf, hmv, hmf⟩ := mem_collectFrom hc hmemv
    obtain ⟨base, hname, hshape⟩ := method_variant_mem_shape hmv hmf
    rcases hshape with ⟨hid, hbody⟩ | ⟨hid, hmn, hbody⟩
    · exact ⟨v, hv, Member.named base, hbody, fun value => by
        rw [hbody]; rfl⟩
    · exact ⟨v, hv, Member.unnamed (0 + j), hbody, fun value => by
        rw [hbody]; rfl⟩
  · intro self fields specs hdata h s hs
    have hms : collectFrom (fun i f => method_field self f i fields.length)
        0 fields = some specs := by
      simp only [getters_methods, hdata] at h
      cases hm : methods_struct self fields with
      | none => rw [hm] at h; exact absurd h (by simp)
      | some l =>
        rw [hm] at h
        have hl : l = specs := by simpa using h
        exact hl ▸ hm
    obtain ⟨j, f, hj, lf, hmfeq, hmem⟩ := mem_collectFrom hms hs
    obtain ⟨base, hname, hshape⟩ := method_field_mem_shape hmfeq hmem
    rcases hshape with ⟨hid, hbody⟩ | ⟨hid, hmn, hbody⟩
    · exact ⟨Member.named base, hbody, fun value => by rw [hbody]; rfl⟩
    · exact ⟨Member.unnamed (0 + j), hbody, fun value => by
        rw [hbody]; rfl⟩

/-- Witness for claim C2: a one-variant named enum declaration; its sole
generated accessor carries the guarded body for variant V and evaluates to
some under V and none otherwise. -/
theorem claim_c2_witness :
    ∃ v ∈ [(⟨"V", none,
        [⟨some "x", "T", false, false, false, false, false, false,
           false⟩],
        false, false, false, false, false, false, false⟩ :
          GettersVariant)],
      ∃ loc,
        (⟨"v_x_ref", Kind.kref,
          GenBody.guardedField "E" "V" (Member.named "x")⟩ :
            AccessorSpec).body = GenBody.guardedField "E" v.ident loc ∧
        ∀ value : Value,
          evalBody (⟨"v_x_ref", Kind.kref,
            GenBody.guardedField "E" "V" (Member.named "x")⟩ :
              AccessorSpec).body value =
            RetVal.wrapped (if value.activeVariant = v.ident
              then some (lookupMember loc value) else none) :=
  claim_c2.1
    ⟨"E", GettersData.isEnum
      [⟨"V", none,
        [⟨some "x", "T", false, false, false, false, false, false,
           false⟩],
        false, false, false, false, false, false, false⟩],
      false, false, false⟩
    [⟨"V", none,
      [⟨some "x", "T", false, false, false, false, false, false, false⟩],
      false, false, false, false, false, false, false⟩]
    [⟨"v_x_ref", Kind.kref,
      GenBody.guardedField "E" "V" (Member.named "x")⟩]
    rfl (by decide)
    ⟨"v_x_ref", Kind.kref, GenBody.guardedField "E" "V" (Member.named "x")⟩
    (by decide)

/-- Claim C6: every accessor of a struct declaration is named by the base
name (the explicit field name, or the positional canonical name from
method_name) followed by the suffix of its kind; every accessor of an enum
declaration is named by the ASCII-lowercased variant name, an underscore,
the base name, and the kind suffix. -/
theorem claim_c6 :
    (∀ (self : GettersInput) (fields : List GettersField)
       (specs : List AccessorSpec),
       self.data = GettersData.isStruct fields →
       getters_methods self = Except.ok specs →
       ∀ s ∈ specs, ∃ i f base, fields[i]? = some f ∧
         s.methodName = base ++ suffixFor s.kind ∧
         (f.ident = some base ∨
          (f.ident = none ∧ method_name i fields.length = some base))) ∧
    (∀ (self : GettersInput) (variants : List GettersVariant)
       (specs : List AccessorSpec),
       self.data = GettersData.isEnum variants →
       getters_methods self = Except.ok specs →
       ∀ s ∈ specs, ∃ v ∈ variants, ∃ i f base, v.fields[i]? = some f ∧
         s.methodName =
           asciiLowercase v.ident ++ "_" ++ base ++ suffixFor s.kind ∧
         (f.ident = some base ∨
          (f.ident = none ∧
           method_name i v.fields.length = some base))) := by
  constructor
  · intro self fields specs hdata h s hs
    have hms : collectFrom (fun i f => method_field self f i fields.length)
        0 fields = some specs := by
      simp only [getters_methods, hdata] at h
      cases hm : methods_struct self fields with
      | none => rw [hm] at h; exact absurd h (by simp)
      | some l =>
        rw [hm] at h
        have hl : l = specs := by simpa using h
        exact hl ▸ hm
    obtain ⟨j, f, hj, lf, hmfeq, hmem⟩ := mem_collectFrom hms hs
    rw [Nat.zero_add] at hmfeq
    obtain ⟨base, hname, hshape⟩ := method_field_mem_shape hmfeq hmem
    rcases hshape with ⟨hid, _⟩ | ⟨hid, hmn, _⟩
    · exact ⟨j, f, base, hj, hname, Or.inl hid⟩
    · exact ⟨j, f, base, hj, hname, Or.inr ⟨hid, hmn⟩⟩
  · intro self variants specs hdata h s hs
    have hme : methods_enum self variants = Except.ok specs := by
      simpa [getters_methods, hdata] using h
    obtain ⟨v, hv, lv, hc, hmemv⟩ := mem_methods_enum hme hs
    obtain ⟨j, f, hj, lf, hmv, hmf⟩ := mem_collectFrom hc hmemv
    rw [Nat.zero_add] at hmv
    obtain ⟨base, hname, hshape⟩ := method_variant_mem_shape hmv hmf
    rcases hshape with ⟨hid, _⟩ | ⟨hid, hmn, _⟩
    · exact ⟨v, hv, j, f, base, hj, hname, Or.inl hid⟩
    · exact ⟨v, hv, j, f, base, hj, hname, Or.inr ⟨hid, hmn⟩⟩

/-- Witness for claim C6: a two-field tuple struct; its last-position
clone accessor is named last_clone. -/
theorem claim_c6_witness :
    ∃ i f base,
      [(⟨none, "T", false, false, true, false, false, false, false⟩ :
          GettersField),
       ⟨none, "T", false, false, true, false, false, false, false⟩][i]? =
        some f ∧
      (⟨"last_clone", Kind.kclone,
        GenBody.directField (Member.unnamed 1)⟩ :
          AccessorSpec).methodName =
        base ++ suffixFor (⟨"last_clone", Kind.kclone,
          GenBody.directField (Member.unnamed 1)⟩ : AccessorSpec).kind ∧
      (f.ident = some base ∨
       (f.ident = none ∧ method_name i 2 = some base)) :=
  claim_c6.1
    ⟨"S", GettersData.isStruct
      [⟨none, "T", false, false, true, false, false, false, false⟩,
       ⟨none, "T", false, false, true, false, false, false, false⟩],
      false, false, false⟩
    [⟨none, "T", false, false, true, false, false, false, false⟩,
     ⟨none, "T", false, false, true, false, false, false, false⟩]
    [⟨"first_ref", Kind.kref, GenBody.directField (Member.unnamed 0)⟩,
     ⟨"first_clone", Kind.kclone, GenBody.directField (Member.unnamed 0)⟩,
     ⟨"last_ref", Kind.kref, GenBody.directField (Member.unnamed 1)⟩,
     ⟨"last_clone", Kind.kclone, GenBody.directField (Member.unnamed 1)⟩]
    rfl (by decide)
    ⟨"last_clone", Kind.kclone, GenBody.directField (Member.unnamed 1)⟩
    (by decide)

/-- Claim C8: the generated accessors of a declaration form a sublist of
the canonical fully-enabled ordered plan (variants in declaration order,
fields in position order, kinds in the fixed order Ref, Mut, Clone,
Deref), so skipped kinds are omitted without disturbing the order of the
rest. -/
theorem claim_c8 :
    (∀ (self : GettersInput) (fields : List GettersField)
       (specs : List AccessorSpec),
       self.data = GettersData.isStruct fields →
       getters_methods self = Except.ok specs →
       ∃ full, fullPlanStruct fields = some full ∧
         List.Sublist specs full) ∧
    (∀ (self : GettersInput) (variants : List GettersVariant)
       (specs : List AccessorSpec),
       self.data = GettersData.isEnum variants →
       getters_methods self = Except.ok specs →
       ∃ full, fullPlanEnum self.ident variants = some full ∧
         List.Sublist specs full) := by
  constructor
  · intro self fields specs hdata h
    have hms : collectFrom (fun i f => method_field self f i fields.length)
        0 fields = some specs := by
      simp only [getters_methods, hdata] at h
      cases hm : methods_struct self fields with
      | none => rw [hm] at h; exact absurd h (by simp)
      | some l =>
        rw [hm] at h
        have hl : l = specs := by simpa using h
        exact hl ▸ hm
    exact collectFrom_sublist
      (fun i x lx hx => method_field_sublist_full hx) hms
  · intro self variants specs hdata h
    have hme : methods_enum self variants = Except.ok specs := by
      simpa [getters_methods, hdata] using h
    exact methods_enum_sublist_full hme

/-- Witness for claim C8: the accessors of a newtype struct with a
skipped mutable kind form a sublist of the canonical full plan. -/
theorem claim_c8_witness :
    ∃ full, fullPlanStruct
      [⟨none, "T", false, false, false, false, true, false, false⟩] =
        some full ∧
      List.Sublist
        [⟨"first_ref", Kind.kref, GenBody.directField (Member.unnamed 0)⟩]
        full :=
  claim_c8.1
    ⟨"S", GettersData.isStruct
      [⟨none, "T", false, false, false, false, true, false, false⟩],
      true, false, false⟩
    [⟨none, "T", false, false, false, false, true, false, false⟩]
    [⟨"first_ref", Kind.kref, GenBody.directField (Member.unnamed 0)⟩]
    rfl (by decide)

/-- Claim C5 counterexample: two single-field positional (newtype) struct
declarations that differ only in the presence of the field-level skip flag
on the positional field generate different accessor sets, so field-level
flags do change what is generated for a positional field. -/
theorem claim_c5_counterexample :
    getters_methods ⟨"S", GettersData.isStruct
        [⟨none, "T", false, false, false, false, false, false, false⟩],
        false, false, false⟩ =
      Except.ok [⟨"first_ref", Kind.kref,
        GenBody.directField (Member.unnamed 0)⟩] ∧
    getters_methods ⟨"S", GettersData.isStruct
        [⟨none, "T", false, false, false, true, false, false, false⟩],
        false, false, false⟩ = Except.ok [] :=
  ⟨by decide, by decide⟩

/-- Claim C5 as amended: field-level flags are resolved before the code
branches on whether the field is named, so they apply to positional
(tuple and newtype) fields exactly as to named fields; on a positional
field each flag does change which accessors are generated, following the
same resolution formulas. -/
theorem claim_c5_amended :
    ∀ (self : GettersInput) (field : GettersField) (index max : Nat)
      (l : List AccessorSpec),
      field.ident = none →
      method_field self field index max = some l →
      (((∃ s ∈ l, s.kind = Kind.kref) ↔ field.skip = false) ∧
       ((∃ s ∈ l, s.kind = Kind.kmut) ↔
          ((field.mutable = true ∨ self.mutable = true) ∧
           field.skip_mutable = false)) ∧
       ((∃ s ∈ l, s.kind = Kind.kclone) ↔
          ((field.clone = true ∨ self.clone = true) ∧
           field.skip_clone = false)) ∧
       ((∃ s ∈ l, s.kind = Kind.kderef) ↔
          ((field.deref = true ∨ self.deref = true) ∧
           field.skip_deref = false))) := by
  intro self field index max l hid h
  obtain ⟨base, body, hl⟩ := method_field_eq_specsFor h
  subst hl
  have hk := exists_kind_specsFor base body
    (!field.skip)
    ((field.mutable || self.mutable) && !field.skip_mutable)
    ((field.clone || self.clone) && !field.skip_clone)
    ((field.deref || self.deref) && !field.skip_deref)
  refine ⟨?_, ?_, ?_, ?_⟩
  · rw [hk.1]
    cases field.skip <;> simp
  · rw [hk.2.1]
    cases field.mutable <;> cases self.mutable <;>
      cases field.skip_mutable <;> simp
  · rw [hk.2.2.1]
    cases field.clone <;> cases self.clone <;>
      cases field.skip_clone <;> simp
  · rw [hk.2.2.2]
    cases field.deref <;> cases self.deref <;>
      cases field.skip_deref <;> simp

/-- Witness for the amended claim C5: a positional field carrying the
skip_mutable flag under a type-level mutable default emits no mutable
accessor, while its clone default goes through. -/
theorem claim_c5_amended_witness :
    ((∃ s ∈ specsFor "first"
        (GenBody.directField (Member.unnamed 0)) true false true false,
        s.kind = Kind.kref) ↔ (false = false)) ∧
    ((∃ s ∈ specsFor "first"
        (GenBody.directField (Member.unnamed 0)) true false true false,
        s.kind = Kind.kmut) ↔
      ((false = true ∨ true = true) ∧ true = false)) ∧
    ((∃ s ∈ specsFor "first"
        (GenBody.directField (Member.unnamed 0)) true false true false,
        s.kind = Kind.kclone) ↔
      ((false = true ∨ true = true) ∧ false = false)) ∧
    ((∃ s ∈ specsFor "first"
        (GenBody.directField (Member.unnamed 0)) true false true false,
        s.kind = Kind.kderef) ↔
      ((false = true ∨ false = true) ∧ false = false)) :=
  claim_c5_amended
    ⟨"S", GettersData.isStruct [], true, true, false⟩
    ⟨none, "T", false, false, false, false, true, false, false⟩
    0 1
    (specsFor "first" (GenBody.directField (Member.unnamed 0))
      true false true false)
    rfl
    (by decide)

/-- Claim C3: for a positional variant with field count n, if n equals 1
the sole field (position 0) has canonical name first and never last; if n
exceeds 1 the field at position n-1 is named last, independent of n. -/
theorem claim_c3 :
    (∀ n : Nat, 1 < n → method_name (n - 1) n = some "last") ∧
    (method_name 0 1 = some "first" ∧ method_name 0 1 ≠ some "last") := by
  refine ⟨?_, by decide, by decide⟩
  intro n hn
  unfold method_name
  rw [if_pos ⟨rfl, by omega⟩]
  rfl

/-- Witness for claim C3 at the concrete field count 5. -/
theorem claim_c3_witness : 1 < 5 ∧ method_name 4 5 = some "last" :=
  ⟨by decide, claim_c3.1 5 (by decide)⟩

/-- Claim C4 counterexample: in a positional variant with 20 fields the
non-terminal position 7 (within the claimed range 0..18) is named eigth by
the code table, not the correctly spelled English ordinal eighth the claim
requires. -/
theorem claim_c4_counterexample :
    method_name 7 20 = some "eigth" ∧ method_name 7 20 ≠ some "eighth" :=
  ⟨by decide, by decide⟩

/-- Claim C4 as amended: for every positional variant with n greater than
1 fields and every non-terminal position p at most 18, the field at
position p is named by entry p of the fixed 20-entry table, whose entries
run first, second, third, ... with entry 7 spelled eigth (sic) in the
source and entry 18 spelled nineteenth. -/
theorem claim_c4_amended :
    (∀ p n : Nat, 1 < n → p + 2 ≤ n → p ≤ 18 →
      method_name p n = NUMERAL_TO_ORDINAL[p]? ∧
      (NUMERAL_TO_ORDINAL[p]?).isSome = true) ∧
    method_name 0 20 = some "first" ∧ method_name 1 20 = some "second" ∧
    method_name 7 20 = some "eigth" ∧
    method_name 18 20 = some "nineteenth" := by
  refine ⟨?_, by decide, by decide, by decide, by decide⟩
  intro p n h1 h2 h3
  constructor
  · unfold method_name
    rw [if_neg]
    rintro ⟨hp, hn⟩
    omega
  · have hlt : p < NUMERAL_TO_ORDINAL.length := by
      rw [NUMERAL_TO_ORDINAL_length]; omega
    rw [List.getElem?_eq_getElem hlt]
    rfl

/-- Witness for the amended claim C4 at position 3 of a 20-field
variant. -/
theorem claim_c4_amended_witness :
    1 < 20 ∧ method_name 3 20 = NUMERAL_TO_ORDINAL[3]? :=
  ⟨by decide, (claim_c4_amended.1 3 20 (by decide) (by decide)
    (by decide)).1⟩

/-- Claim C10: the ordinal lookup is total for variants of at most 20
positional fields (every non-terminal position stays at index at most 18
of the table, the single-field case uses index 0), while a non-terminal
position of 20 or more hits the unguarded table index and panics (modeled
as none). -/
theorem claim_c10 :
    (∀ n p : Nat, n ≤ 20 → p < n → ∃ s, method_name p n = some s) ∧
    (∀ n p : Nat, n ≤ 20 → p < n → ¬(p + 1 = n ∧ n ≠ 1) →
      p ≤ 18 ∧ method_name p n = NUMERAL_TO_ORDINAL[p]?) ∧
    (∀ n p : Nat, 20 ≤ p → p + 1 ≠ n → method_name p n = none) := by
  refine ⟨?_, ?_, ?_⟩
  · intro n p h1 h2
    exact method_name_total h2 h1
  · intro n p h1 h2 h3
    have hc : ¬(p = n - 1 ∧ n ≠ 1) := by
      rintro ⟨hp, hn⟩
      exact h3 ⟨by omega, hn⟩
    refine ⟨by omega, ?_⟩
    unfold method_name
    rw [if_neg hc]
  · intro n p h1 h2
    have hc : ¬(p = n - 1 ∧ n ≠ 1) := by
      rintro ⟨hp, hn⟩
      omega
    unfold method_name
    rw [if_neg hc]
    apply List.getElem?_eq_none
    rw [NUMERAL_TO_ORDINAL_length]
    omega

/-- Witness for claim C10: totality at position 5 of 20, the table route
at position 5 of 20, and the panic at non-terminal position 25 of a
27-field variant. -/
theorem claim_c10_witness :
    (∃ s, method_name 5 20 = some s) ∧
    (5 ≤ 18 ∧ method_name 5 20 = NUMERAL_TO_ORDINAL[5]?) ∧
    method_name 25 27 = none :=
  ⟨claim_c10.1 20 5 (by decide) (by decide),
   claim_c10.2.1 20 5 (by decide) (by decide) (by decide),
   claim_c10.2.2 27 25 (by decide) (by decide)⟩

/-- Claim C9: the variant-level enable flags mutable, deref and clone are
parsed into GettersVariant but never consulted; replacing them by
arbitrary values on every variant leaves the generated methods of an enum
declaration unchanged. -/
theorem claim_c9 :
    ∀ (self : GettersInput) (variants : List GettersVariant)
      (fm fd fc : GettersVariant → Bool),
      methods_enum self (variants.map (fun v =>
        { v with mutable := fm v, deref := fd v, clone := fc v })) =
      methods_enum self variants := by
  intro self variants fm fd fc
  induction variants with
  | nil => rfl
  | cons v vs ih =>
    obtain ⟨vi, vd, vf, vm, vde, vcl, vsk, vskm, vskd, vskc⟩ := v
    simp only [List.map_cons, methods_enum]
    cases vd with
    | some d => rfl
    | none => rw [ih]

/-- Claim C7 first half: for an enum declaration within the supported
domain (every variant has at most 20 fields, the bound the spec sets for
positional naming), the presence of any explicit discriminant aborts
generation with the UnsupportedDiscriminant error carrying a discriminant
that occurs in the declaration, and no accessors are produced; second
half: with no discriminants present this error is never raised. -/
theorem claim_c7 :
    (∀ (self : GettersInput) (variants : List GettersVariant),
      (∀ v ∈ variants, v.fields.length ≤ 20) →
      (∃ v ∈ variants, v.discriminant.isSome = true) →
      ∃ d v, v ∈ variants ∧ v.discriminant = some d ∧
        methods_enum self variants =
          Except.error (GenError.unsupportedDiscriminant d)) ∧
    (∀ (self : GettersInput) (variants : List GettersVariant),
      (∀ v ∈ variants, v.discriminant = none) →
      ∀ d, methods_enum self variants ≠
        Except.error (GenError.unsupportedDiscriminant d)) := by
  constructor
  · intro self variants
    induction variants with
    | nil =>
      intro _ hex
      simp at hex
    | cons v vs ih =>
      intro hb hex
      cases hd : v.discriminant with
      | some d =>
        refine ⟨d, v, List.mem_cons_self v vs, hd, ?_⟩
        simp only [methods_enum]
        rw [hd]
      | none =>
        have hex2 : ∃ v2 ∈ vs, v2.discriminant.isSome = true := by
          rcases hex with ⟨v2, hv2, hds⟩
          rcases List.mem_cons.mp hv2 with heq | hmem
          · subst heq; rw [hd] at hds; simp at hds
          · exact ⟨v2, hmem, hds⟩
        obtain ⟨d, v2, hv2, hd2, heq⟩ :=
          ih (fun u hu => hb u (List.mem_cons_of_mem v hu)) hex2
        refine ⟨d, v2, List.mem_cons_of_mem v hv2, hd2, ?_⟩
        simp only [methods_enum]
        rw [hd]
        have htot : ∃ lv, collectFrom (fun i f => method_variant self f i
            v.fields.length self.ident v.ident v.skip v.skip_mutable
            v.skip_clone v.skip_deref) 0 v.fields = some lv :=
          collectFrom_total (fun j x hx => by
            obtain ⟨hj, _⟩ := List.getElem?_eq_some_iff.mp hx
            exact method_variant_total (by omega)
              (hb v (List.mem_cons_self v vs)))
        obtain ⟨lv, hlv⟩ := htot
        rw [hlv, heq]
  · intro self variants
    induction variants with
    | nil =>
      intro _ d h
      exact Except.noConfusion h
    | cons v vs ih =>
      intro hnd d
      have hd : v.discriminant = none := hnd v (List.mem_cons_self v vs)
      simp only [methods_enum]
      rw [hd]
      cases hc : collectFrom (fun i f => method_variant self f i
          v.fields.length self.ident v.ident v.skip v.skip_mutable
          v.skip_clone v.skip_deref) 0 v.fields with
      | none =>
        intro h
        simp at h
      | some lv =>
        cases hrec : methods_enum self vs with
        | error e =>
          intro h
          have he : e = GenError.unsupportedDiscriminant d := by
            simpa using h
          exact ih (fun u hu => hnd u (List.mem_cons_of_mem v hu)) d
            (he ▸ hrec)
        | ok rest =>
          intro h
          simp at h

/-- Witness for claim C7: a two-variant enum whose second variant carries
discriminant 3 aborts with that discriminant; a discriminant-free variant
list never produces the error. -/
theorem claim_c7_witness :
    (∃ d v,
      v ∈ [(⟨"A", none, [], false, false, false, false, false, false,
              false⟩ : GettersVariant),
           ⟨"B", some 3, [], false, false, false, false, false, false,
              false⟩] ∧
      v.discriminant = some d ∧
      methods_enum ⟨"E", GettersData.isEnum [], false, false, false⟩
          [⟨"A", none, [], false, false, false, false, false, false,
              false⟩,
           ⟨"B", some 3, [], false, false, false, false, false, false,
              false⟩] =
        Except.error (GenError.unsupportedDiscriminant d)) ∧
    (methods_enum ⟨"E", GettersData.isEnum [], false, false, false⟩
        [⟨"A", none, [], false, false, false, false, false, false,
            false⟩] ≠
      Except.error (GenError.unsupportedDiscriminant 3)) :=
  ⟨claim_c7.1 ⟨"E", GettersData.isEnum [], false, false, false⟩
      [⟨"A", none, [], false, false, false, false, false, false, false⟩,
       ⟨"B", some 3, [], false, false, false, false, false, false, false⟩]
      (by decide) (by decide),
   claim_c7.2 ⟨"E", GettersData.isEnum [], false, false, false⟩
      [⟨"A", none, [], false, false, false, false, false, false, false⟩]
      (by decide) 3⟩

end Getters2
